import Mathlib

/-!
A verification development for the `alpm-types` crate: the ALPM version
model (`epoch:pkgver-pkgrel`), the vercmp segment comparison algorithm,
version requirements, and the environment types (`MakePkgOption`,
`InstalledPackage`).

The version-comparison core (`version.rs`) is not part of the available
sources; its definitions below are modelled from the specification
(spec.md sections 3, 4 and 6) and are marked as such.  Everything in
`env.rs`, `error.rs` and `lib.rs` is translated directly from the code.
-/

namespace Alpm

/-- The error type, translated from `error.rs` (enum `Error`), extended with
the variants that `env.rs` constructs (`MissingComponent`,
`ValueContainsInvalidChars`, `InvalidInteger` and the `strum` variant-not-found
error surfaced through `Architecture` parsing). -/
inductive Error where
  | invalidBuildDate : String → Error
  | invalidCompressedSize : String → Error
  | invalidInstalledSize : String → Error
  | invalidName : String → Error
  | invalidMd5Sum : String → Error
  | invalidVersion : String → Error
  | missingComponent : String → Error
  | valueContainsInvalidChars : Char → Error
  | invalidInteger : Error
  | variantNotFound : Error
deriving DecidableEq, Repr

/-- Modelled from the spec: a segment is a maximal run of ASCII digits or a
maximal run of ASCII letters inside a pkgver/pkgrel (spec section 4.1). -/
inductive Segment where
  | digits : List Char → Segment
  | letters : List Char → Segment
deriving DecidableEq, Repr

/-- The character list held by a segment. -/
def Segment.chars : Segment → List Char
  | .digits cs => cs
  | .letters cs => cs

/-- Three-way comparison of natural numbers. -/
def cmpNat (m n : Nat) : Ordering :=
  if m < n then .lt else if n < m then .gt else .eq

/-- Byte-lexicographic three-way comparison of character lists (all segment
characters are ASCII, so code-point order and byte order coincide). -/
def lexCmp : List Char → List Char → Ordering
  | [], [] => .eq
  | [], _ :: _ => .lt
  | _ :: _, [] => .gt
  | a :: as, b :: bs =>
    match cmpNat a.toNat b.toNat with
    | .eq => lexCmp as bs
    | o => o

/-- Numeric value of a digit run; leading zeros do not change the value. -/
def natOfDigits (cs : List Char) : Nat :=
  cs.foldl (fun a c => 10 * a + (c.toNat - 48)) 0

/-- A character kept by the tokenizer: an ASCII digit or an ASCII letter. -/
def isSegmentChar (c : Char) : Bool := c.isDigit || c.isAlpha

/-- Prepend the pending run (if any) to an already-produced segment list. -/
def flushRun (cur : Option Segment) (rest : List Segment) : List Segment :=
  match cur with
  | some seg => seg :: rest
  | none => rest

/-- Modelled from the spec: the segment tokenizer (spec section 4.1).  It
walks the input once, extending the pending run while the character class is
unchanged, closing it on a separator or on a digit/letter class change, and
discarding the separator characters themselves. -/
def tokenizeFrom : Option Segment → List Char → List Segment
  | cur, [] => flushRun cur []
  | cur, c :: cs =>
    if c.isDigit then
      match cur with
      | some (.digits ds) => tokenizeFrom (some (.digits (ds ++ [c]))) cs
      | some (.letters ls) => .letters ls :: tokenizeFrom (some (.digits [c])) cs
      | none => tokenizeFrom (some (.digits [c])) cs
    else if c.isAlpha then
      match cur with
      | some (.letters ls) => tokenizeFrom (some (.letters (ls ++ [c]))) cs
      | some (.digits ds) => .digits ds :: tokenizeFrom (some (.letters [c])) cs
      | none => tokenizeFrom (some (.letters [c])) cs
    else
      flushRun cur (tokenizeFrom none cs)

/-- Modelled from the spec: tokenize a pkgver/pkgrel string into its ordered
list of segments (spec section 4.1). -/
def tokenize (cs : List Char) : List Segment := tokenizeFrom none cs

/-- Modelled from the spec: the segment comparator on two optional segments
(spec section 4.2): same-kind segments compare by numeric value resp.
byte-lexicographically, numeric beats alphabetic, an exhausted side is
Greater than a present alphabetic segment and Less than a present numeric
segment, and two exhausted sides are Equal. -/
def cmpOptSeg : Option Segment → Option Segment → Ordering
  | some (.digits a), some (.digits b) => cmpNat (natOfDigits a) (natOfDigits b)
  | some (.letters a), some (.letters b) => lexCmp a b
  | some (.digits _), some (.letters _) => .gt
  | some (.letters _), some (.digits _) => .lt
  | some (.digits _), none => .gt
  | some (.letters _), none => .lt
  | none, some (.digits _) => .lt
  | none, some (.letters _) => .gt
  | none, none => .eq

/-- Modelled from the spec: the pkgver comparator walk (spec section 4.3):
compare the two segment sequences pairwise left to right, returning the
first non-Equal segment comparison; when one sequence ends first the
present/absent rule of section 4.2 decides. -/
def cmpSegList : List Segment → List Segment → Ordering
  | [], [] => .eq
  | [], b :: _ => cmpOptSeg none (some b)
  | a :: _, [] => cmpOptSeg (some a) none
  | a :: as, b :: bs =>
    match cmpOptSeg (some a) (some b) with
    | .eq => cmpSegList as bs
    | o => o

/-- Modelled from the spec: the pkgver comparison on raw strings
(spec section 4.3). -/
def vercmp (a b : String) : Ordering :=
  cmpSegList (tokenize a.data) (tokenize b.data)

/-- Modelled from the spec: the composite version triple
`(epoch, pkgver, pkgrel)` (spec section 3). -/
structure Version where
  epoch : Option Nat
  pkgver : List Char
  pkgrel : Option (List Char)
deriving DecidableEq, Repr

/-- The effective epoch: an absent epoch is treated as `0` (spec section 4.4
step 1). -/
def Version.epochVal (v : Version) : Nat := v.epoch.getD 0

/-- Modelled from the spec: the epoch and pkgver comparison steps alone
(spec section 4.4 steps 1 and 2), short-circuiting on the first non-Equal
step. -/
def cmpEpochPkgver (a b : Version) : Ordering :=
  match cmpNat a.epochVal b.epochVal with
  | .eq => cmpSegList (tokenize a.pkgver) (tokenize b.pkgver)
  | o => o

/-- Modelled from the spec: the composite version comparator
(spec section 4.4): epoch, then pkgver, then pkgrel, short-circuiting on the
first non-Equal step; the pkgrel step only compares when both sides carry a
pkgrel, otherwise it contributes Equal. -/
def compareVersions (a b : Version) : Ordering :=
  match cmpEpochPkgver a b with
  | .eq =>
    match a.pkgrel, b.pkgrel with
    | some x, some y => cmpSegList (tokenize x) (tokenize y)
    | _, _ => .eq
  | o => o

/-- An ASCII alphanumeric character. -/
def isAlnumChar (c : Char) : Bool := c.isAlpha || c.isDigit

/-- A character of the accepted pkgver/pkgrel class `[A-Za-z0-9._]`. -/
def isPkgverChar (c : Char) : Bool := isAlnumChar c || c = '.' || c = '_'

/-- Modelled from the spec: a valid pkgver (and pkgrel) string is non-empty,
drawn from `[A-Za-z0-9._]` and starts with an alphanumeric character
(spec sections 3 and 6). -/
def validPkgverChars (cs : List Char) : Bool :=
  match cs with
  | [] => false
  | c :: _ => isAlnumChar c && cs.all isPkgverChar

/-- Split a character list at the first occurrence of `sep`, returning the
text before and after it, or `none` when `sep` does not occur. -/
def splitAtFirst (sep : Char) : List Char → Option (List Char × List Char)
  | [] => none
  | c :: cs =>
    if c = sep then some ([], cs)
    else
      match splitAtFirst sep cs with
      | some (l, r) => some (c :: l, r)
      | none => none

/-- Split a character list at the last occurrence of `sep`. -/
def splitAtLast (sep : Char) (cs : List Char) : Option (List Char × List Char) :=
  match splitAtFirst sep cs.reverse with
  | some (r, l) => some (l.reverse, r.reverse)
  | none => none

/-- Modelled from the spec: parse the composite form `[epoch:]pkgver[-pkgrel]`
(spec sections 4.4 and 6) once the optional `<digits>:` epoch prefix has been
removed.  Every failure is reported as the code's single version error kind
`Error::InvalidVersion` carrying the full input (`error.rs`). -/
def parseVersionTail (orig : List Char) (epoch : Option Nat) (rest : List Char) :
    Except Error Version :=
  match splitAtLast '-' rest with
  | some (pv, pr) =>
    if validPkgverChars pv && validPkgverChars pr then
      .ok ⟨epoch, pv, some pr⟩
    else
      .error (.invalidVersion (String.mk orig))
  | none =>
    if validPkgverChars rest then
      .ok ⟨epoch, rest, none⟩
    else
      .error (.invalidVersion (String.mk orig))

/-- Modelled from the spec: `parse_version` (spec sections 4.4, 6 and 7): an
optional all-digits epoch before the first `:`, then `pkgver[-pkgrel]` split
at the last `-`; an empty input, a malformed epoch, an empty or ill-charactered
pkgver or pkgrel each fail; the error kind is the code's
`Error::InvalidVersion` carrying the input (`error.rs`). -/
def parseVersionChars (cs : List Char) : Except Error Version :=
  match splitAtFirst ':' cs with
  | some (e, rest) =>
    if e.isEmpty || !(e.all Char.isDigit) then
      .error (.invalidVersion (String.mk cs))
    else
      parseVersionTail cs (some (natOfDigits e)) rest
  | none => parseVersionTail cs none cs

/-- String-level entry point for version parsing. -/
def parseVersion (s : String) : Except Error Version := parseVersionChars s.data

/-- Modelled from the spec: `Version::with_pkgrel` — parse a version string
and insist that a pkgrel is present (doc comment of `InstalledPackage` in
`env.rs`: the version "is guaranteed to have a `Pkgrel`"). -/
def versionWithPkgrelChars (cs : List Char) : Except Error Version :=
  match parseVersionChars cs with
  | .ok v => if v.pkgrel.isSome then .ok v else .error (.invalidVersion (String.mk cs))
  | .error e => .error e

/-- Parse both strings as versions and compare them compositely; `none` when
either fails to parse. -/
def parseAndCompare (a b : String) : Option Ordering :=
  match parseVersionChars a.data, parseVersionChars b.data with
  | .ok x, .ok y => some (compareVersions x y)
  | _, _ => none

/-- Modelled from the spec: the five comparator tokens of a version
requirement (spec sections 3 and 4.5). -/
inductive VersionComparison where
  | less
  | lessOrEqual
  | equal
  | greaterOrEqual
  | greater
deriving DecidableEq, Repr

/-- Modelled from the spec: a version requirement `(comparator, version)`
(spec section 3). -/
structure VersionRequirement where
  comparison : VersionComparison
  version : Version
deriving DecidableEq, Repr

/-- Modelled from the spec: match one comparator token at the head of the
input, multi-character tokens first (spec section 4.5), returning the token
and the remaining text. -/
def parseComparatorChars : List Char → Option (VersionComparison × List Char)
  | '<' :: '=' :: rest => some (.lessOrEqual, rest)
  | '>' :: '=' :: rest => some (.greaterOrEqual, rest)
  | '<' :: rest => some (.less, rest)
  | '>' :: rest => some (.greater, rest)
  | '=' :: rest => some (.equal, rest)
  | _ => none

/-- Modelled from the spec: `parse_requirement` (spec section 4.5): one
comparator token followed by a composite version; an unknown comparator or a
missing version text fails. -/
def parseRequirementChars (cs : List Char) : Except Error VersionRequirement :=
  match parseComparatorChars cs with
  | none => .error (.invalidVersion (String.mk cs))
  | some (c, rest) =>
    match parseVersionChars rest with
    | .ok v => .ok ⟨c, v⟩
    | .error e => .error e

/-- String-level entry point for requirement parsing. -/
def parseRequirement (s : String) : Except Error VersionRequirement :=
  parseRequirementChars s.data

/-- Modelled from the spec: which three-way outcomes each comparator token
accepts (spec section 4.5). -/
def comparisonAllows : VersionComparison → Ordering → Bool
  | .less, .lt => true
  | .lessOrEqual, .lt => true
  | .lessOrEqual, .eq => true
  | .equal, .eq => true
  | .greaterOrEqual, .eq => true
  | .greaterOrEqual, .gt => true
  | .greater, .gt => true
  | _, _ => false

/-- Modelled from the spec: `is_satisfied_by` computes the three-way
comparison of the candidate against the stored version and checks the
comparator's relation (spec section 4.5). -/
def isSatisfiedBy (r : VersionRequirement) (candidate : Version) : Bool :=
  comparisonAllows r.comparison (compareVersions candidate r.version)

/-- Parse a requirement and a candidate version and evaluate satisfaction;
`none` when either fails to parse. -/
def parseAndSatisfies (req cand : String) : Option Bool :=
  match parseRequirementChars req.data, parseVersionChars cand.data with
  | .ok r, .ok v => some (isSatisfiedBy r v)
  | _, _ => none

/-- The constructor tag of an `Error`, used to talk about error kinds as
opposed to their payloads. -/
def Error.kindIndex : Error → Nat
  | .invalidBuildDate _ => 0
  | .invalidCompressedSize _ => 1
  | .invalidInstalledSize _ => 2
  | .invalidName _ => 3
  | .invalidMd5Sum _ => 4
  | .invalidVersion _ => 5
  | .missingComponent _ => 6
  | .valueContainsInvalidChars _ => 7
  | .invalidInteger => 8
  | .variantNotFound => 9

/-- The kind of the error of a failed computation, `none` on success. -/
def errKind {α : Type} : Except Error α → Option Nat
  | .error e => some e.kindIndex
  | .ok _ => none

/-- The CPU architecture enum, translated from `lib.rs`. -/
inductive Architecture where
  | aarch64
  | any
  | arm
  | armv6h
  | armv7h
  | i486
  | i686
  | pentium4
  | riscv32
  | riscv64
  | x86_64
  | x86_64_v2
  | x86_64_v3
  | x86_64_v4
deriving DecidableEq, Repr

/-- Architecture parsing, translated from the `strum` string mapping in
`lib.rs`. -/
def archFromChars (cs : List Char) : Option Architecture :=
  let s := String.mk cs
  if s = "aarch64" then some .aarch64
  else if s = "any" then some .any
  else if s = "arm" then some .arm
  else if s = "armv6h" then some .armv6h
  else if s = "armv7h" then some .armv7h
  else if s = "i486" then some .i486
  else if s = "i686" then some .i686
  else if s = "pentium4" then some .pentium4
  else if s = "riscv32" then some .riscv32
  else if s = "riscv64" then some .riscv64
  else if s = "x86_64" then some .x86_64
  else if s = "x86_64_v2" then some .x86_64_v2
  else if s = "x86_64_v3" then some .x86_64_v3
  else if s = "x86_64_v4" then some .x86_64_v4
  else none

/-- First character class of the `Name` regex `[a-z\d_@+]` (`lib.rs`). -/
def isNameStartChar (c : Char) : Bool :=
  c.isLower || c.isDigit || c = '_' || c = '@' || c = '+'

/-- Tail character class of the `Name` regex `[a-z\d\-._@+]` (`lib.rs`). -/
def isNameChar (c : Char) : Bool :=
  isNameStartChar c || c = '-' || c = '.'

/-- `Name::new`, translated from `lib.rs`: the name must match
`^[a-z\d_@+]+[a-z\d\-._@+]*$`. -/
def nameNew (cs : List Char) : Except Error (List Char) :=
  match cs with
  | [] => .error (.invalidName (String.mk cs))
  | c :: rest =>
    if isNameStartChar c && rest.all isNameChar then
      .ok (c :: rest)
    else
      .error (.invalidName (String.mk cs))

/-- Modelled from the Rust standard library: `char::is_alphanumeric`
(Unicode).  On the ASCII range this is exactly the letters and digits; the
non-ASCII characters appearing in the repository's inputs are all
alphanumeric, so they are treated as such here. -/
def rustIsAlphanumeric (c : Char) : Bool :=
  c.isAlpha || c.isDigit || 128 ≤ c.toNat

/-- A character allowed in a `MakePkgOption` name (`env.rs`):
Unicode-alphanumeric or one of `-`, `.`, `_`. -/
def mpoCharValid (c : Char) : Bool :=
  rustIsAlphanumeric c || c = '-' || c = '.' || c = '_'

/-- The `MakePkgOption` type from `env.rs`: an option name plus its on/off
state. -/
structure MakePkgOption where
  name : List Char
  isOn : Bool
deriving DecidableEq, Repr

/-- The character-class check of `MakePkgOption::new` (`env.rs`): reject the
first character of the name that is neither Unicode-alphanumeric nor one of
`-`, `.`, `_`; otherwise construct the option. -/
def mpoCheck (name : List Char) (isOn : Bool) : Except Error MakePkgOption :=
  match name.find? (fun c => !(mpoCharValid c)) with
  | some c => .error (.valueContainsInvalidChars c)
  | none => .ok ⟨name, isOn⟩

/-- `MakePkgOption::new`, translated from `env.rs`: strip one leading `!`
(recording the off state), then validate the remaining name characters. -/
def makePkgOptionNew (s : String) : Except Error MakePkgOption :=
  match s.data with
  | '!' :: rest => mpoCheck rest false
  | other => mpoCheck other true

/-- The `Display` implementation for `MakePkgOption` from `env.rs`: the name,
preceded by `!` when the option is off. -/
def mpoDisplay (o : MakePkgOption) : String :=
  String.mk ((if o.isOn then [] else ['!']) ++ o.name)

/-- Split a character list at every `-`, keeping empty fields, in order
(the semantics of Rust's `str::split`). -/
def splitOnDash : List Char → List (List Char)
  | [] => [[]]
  | c :: cs =>
    if c = '-' then [] :: splitOnDash cs
    else
      match splitOnDash cs with
      | f :: rest => (c :: f) :: rest
      | [] => [[c]]

/-- Join fields with `-`, the inverse of `splitOnDash`. -/
def joinDash : List (List Char) → List Char
  | [] => []
  | [x] => x
  | x :: xs => x ++ '-' :: joinDash xs

/-- Rust's `str::rsplitn(4, '-')` as used by `InstalledPackage::new`
(`env.rs`): the three fields after the last three `-` characters, rightmost
first, followed by the untouched remainder. -/
def rsplitn4Chars (cs : List Char) : List (List Char) :=
  let fs := splitOnDash cs
  if fs.length ≤ 4 then fs.reverse
  else (fs.drop (fs.length - 3)).reverse ++ [joinDash (fs.take (fs.length - 3))]

/-- The `InstalledPackage` type from `env.rs`: a validated name, a version
carrying a pkgrel, and an architecture. -/
structure InstalledPackage where
  name : List Char
  version : Version
  architecture : Architecture
deriving DecidableEq, Repr

/-- `InstalledPackage::new`, translated from `env.rs`: split at the last
three `-` characters, take the architecture, pkgrel and epoch:pkgver fields
from the right, rebuild the version text as `epoch_pkgver-pkgrel`, take the
remainder as the name, then validate the name and parse the version with
`Version::with_pkgrel`. -/
def installedPackageNew (s : String) : Except Error InstalledPackage :=
  match (rsplitn4Chars s.data).get? 0 with
  | none => .error (.missingComponent "architecture")
  | some archText =>
    match archFromChars archText with
    | none => .error .variantNotFound
    | some architecture =>
      match (rsplitn4Chars s.data).get? 1 with
      | none => .error (.missingComponent "pkgrel")
      | some pkgrel =>
        match (rsplitn4Chars s.data).get? 2 with
        | none => .error (.missingComponent "epoch_pkgver")
        | some epochPkgver =>
          match (rsplitn4Chars s.data).get? 3 with
          | none => .error (.missingComponent "name")
          | some nameText =>
            match nameNew nameText with
            | .error e => .error e
            | .ok name =>
              match versionWithPkgrelChars (epochPkgver ++ '-' :: pkgrel) with
              | .error e => .error e
              | .ok version => .ok ⟨name, version, architecture⟩

/-- Exactly one of three propositions holds. -/
def ExactlyOne (p q r : Prop) : Prop :=
  (p ∧ ¬q ∧ ¬r) ∨ (¬p ∧ q ∧ ¬r) ∨ (¬p ∧ ¬q ∧ r)

/-- A well-formed segment: non-empty, and homogeneous in character class
(all ASCII digits for a numeric segment, all ASCII letters for an
alphabetic one). -/
def segOk : Segment → Bool
  | .digits cs => !cs.isEmpty && cs.all Char.isDigit
  | .letters cs => !cs.isEmpty && cs.all Char.isAlpha

/-- Concatenation of the characters of a segment list, in order. -/
def joinSegs (segs : List Segment) : List Char :=
  (segs.map Segment.chars).flatten

/-- The characters of an optional pending run. -/
def optChars : Option Segment → List Char
  | some seg => seg.chars
  | none => []

/-! ### Lawfulness of the basic comparators -/

theorem cmpNat_eq_iff {m n : Nat} : cmpNat m n = .eq ↔ m = n := by
  unfold cmpNat
  split_ifs with h1 h2 <;> simp <;> omega

theorem cmpNat_lt_iff {m n : Nat} : cmpNat m n = .lt ↔ m < n := by
  unfold cmpNat
  split_ifs with h1 h2 <;> simp <;> omega

theorem cmpNat_gt_iff {m n : Nat} : cmpNat m n = .gt ↔ n < m := by
  unfold cmpNat
  split_ifs with h1 h2 <;> simp <;> omega

theorem cmpNat_swap (m n : Nat) : cmpNat m n = (cmpNat n m).swap := by
  unfold cmpNat
  split_ifs <;> first | rfl | omega

theorem char_toNat_inj {c d : Char} (h : c.toNat = d.toNat) : c = d :=
  Char.eq_of_val_eq (UInt32.eq_of_val_eq (Fin.eq_of_val_eq h))

theorem lexCmp_refl (l : List Char) : lexCmp l l = .eq := by
  induction l with
  | nil => rfl
  | cons a as ih =>
    simp [lexCmp, show cmpNat a.toNat a.toNat = .eq from cmpNat_eq_iff.mpr rfl, ih]

theorem lexCmp_swap (a b : List Char) : lexCmp a b = (lexCmp b a).swap := by
  induction a generalizing b with
  | nil => cases b <;> rfl
  | cons x xs ih =>
    cases b with
    | nil => rfl
    | cons y ys =>
      simp only [lexCmp]
      rw [cmpNat_swap x.toNat y.toNat]
      cases h : cmpNat y.toNat x.toNat <;> simp [Ordering.swap, ih ys]

theorem lexCmp_eq_iff {a b : List Char} : lexCmp a b = .eq ↔ a = b := by
  induction a generalizing b with
  | nil => cases b <;> simp [lexCmp]
  | cons x xs ih =>
    cases b with
    | nil => simp [lexCmp]
    | cons y ys =>
      simp only [lexCmp]
      cases h : cmpNat x.toNat y.toNat with
      | eq =>
        have hxy : x = y := char_toNat_inj (cmpNat_eq_iff.mp h)
        simp [hxy, ih]
      | lt =>
        constructor
        · intro hc
          exact absurd hc (by simp)
        · intro hc
          injection hc with hc1 hc2
          rw [hc1, cmpNat_eq_iff.mpr rfl] at h
          exact absurd h (by simp)
      | gt =>
        constructor
        · intro hc
          exact absurd hc (by simp)
        · intro hc
          injection hc with hc1 hc2
          rw [hc1, cmpNat_eq_iff.mpr rfl] at h
          exact absurd h (by simp)

theorem lexCmp_lt_trans {a b c : List Char} (h1 : lexCmp a b = .lt)
    (h2 : lexCmp b c = .lt) : lexCmp a c = .lt := by
  induction a generalizing b c with
  | nil =>
    cases b with
    | nil => exact absurd h1 (by simp [lexCmp])
    | cons y ys =>
      cases c with
      | nil => exact absurd h2 (by simp [lexCmp])
      | cons z zs => rfl
  | cons x xs ih =>
    cases b with
    | nil => exact absurd h1 (by simp [lexCmp])
    | cons y ys =>
      cases c with
      | nil => exact absurd h2 (by simp [lexCmp])
      | cons z zs =>
        simp only [lexCmp] at h1 h2 ⊢
        cases hxy : cmpNat x.toNat y.toNat with
        | lt =>
          cases hyz : cmpNat y.toNat z.toNat with
          | lt =>
            have : cmpNat x.toNat z.toNat = .lt := by
              rw [cmpNat_lt_iff] at hxy hyz ⊢
              omega
            rw [this]
          | eq =>
            have hyzn : y.toNat = z.toNat := cmpNat_eq_iff.mp hyz
            have : cmpNat x.toNat z.toNat = .lt := by
              rw [cmpNat_lt_iff] at hxy ⊢
              omega
            rw [this]
          | gt => rw [hyz] at h2; exact absurd h2 (by simp)
        | eq =>
          have hxyn : x.toNat = y.toNat := cmpNat_eq_iff.mp hxy
          rw [hxy] at h1
          cases hyz : cmpNat y.toNat z.toNat with
          | lt =>
            have : cmpNat x.toNat z.toNat = .lt := by
              rw [cmpNat_lt_iff] at hyz ⊢
              omega
            rw [this]
          | eq =>
            have hyzn : y.toNat = z.toNat := cmpNat_eq_iff.mp hyz
            have : cmpNat x.toNat z.toNat = .eq := by
              rw [cmpNat_eq_iff]
              omega
            rw [this]
            rw [hyz] at h2
            exact ih h1 h2
          | gt => rw [hyz] at h2; exact absurd h2 (by simp)
        | gt => rw [hxy] at h1; exact absurd h1 (by simp)

/-! ### Lawfulness of the segment comparator -/

theorem cmpOptSeg_refl (x : Option Segment) : cmpOptSeg x x = .eq := by
  rcases x with _ | (ds | ls)
  · rfl
  · exact cmpNat_eq_iff.mpr rfl
  · exact lexCmp_refl ls

theorem cmpOptSeg_swap (x y : Option Segment) : cmpOptSeg x y = (cmpOptSeg y x).swap := by
  rcases x with _ | (a | a) <;> rcases y with _ | (b | b) <;>
    first
      | rfl
      | exact cmpNat_swap _ _
      | exact lexCmp_swap _ _

theorem cmpOptSeg_congr_left {x y : Option Segment} (h : cmpOptSeg x y = .eq)
    (z : Option Segment) : cmpOptSeg x z = cmpOptSeg y z := by
  rcases x with _ | (a | a) <;> rcases y with _ | (b | b) <;>
    try exact Ordering.noConfusion h
  · rfl
  · have hv : natOfDigits a = natOfDigits b := cmpNat_eq_iff.mp h
    rcases z with _ | (c | c) <;> simp [cmpOptSeg, hv]
  · have hv : a = b := lexCmp_eq_iff.mp h
    rw [hv]

theorem cmpOptSeg_congr_right {y z : Option Segment} (h : cmpOptSeg y z = .eq)
    (x : Option Segment) : cmpOptSeg x y = cmpOptSeg x z := by
  rw [cmpOptSeg_swap x y, cmpOptSeg_swap x z, cmpOptSeg_congr_left h x]

theorem cmpOptSeg_lt_trans {x y z : Option Segment} (h1 : cmpOptSeg x y = .lt)
    (h2 : cmpOptSeg y z = .lt) : cmpOptSeg x z = .lt := by
  rcases x with _ | (a | a) <;> rcases y with _ | (b | b) <;> rcases z with _ | (c | c) <;>
    first
      | rfl
      | exact Ordering.noConfusion h1
      | exact Ordering.noConfusion h2
      | (refine cmpNat_lt_iff.mpr ?_
         have v1 := cmpNat_lt_iff.mp h1
         have v2 := cmpNat_lt_iff.mp h2
         omega)
      | exact lexCmp_lt_trans h1 h2

/-! ### Lawfulness of the pkgver segment walk -/

theorem cmpSegList_refl (l : List Segment) : cmpSegList l l = .eq := by
  induction l with
  | nil => rfl
  | cons s ss ih => simp [cmpSegList, cmpOptSeg_refl, ih]

theorem cmpSegList_swap (a b : List Segment) : cmpSegList a b = (cmpSegList b a).swap := by
  induction a generalizing b with
  | nil =>
    cases b with
    | nil => rfl
    | cons y ys => exact cmpOptSeg_swap none (some y)
  | cons x xs ih =>
    cases b with
    | nil => exact cmpOptSeg_swap (some x) none
    | cons y ys =>
      simp only [cmpSegList]
      rw [cmpOptSeg_swap (some x) (some y)]
      cases h : cmpOptSeg (some y) (some x) <;> simp [Ordering.swap, ih ys]

theorem cmpSegList_lt_trans {a b c : List Segment} (h1 : cmpSegList a b = .lt)
    (h2 : cmpSegList b c = .lt) : cmpSegList a c = .lt := by
  induction a generalizing b c with
  | nil =>
    cases b with
    | nil => exact Ordering.noConfusion h1
    | cons y ys =>
      cases c with
      | nil =>
        rcases y with ds | ls
        · exact Ordering.noConfusion h2
        · exact Ordering.noConfusion h1
      | cons z zs =>
        rcases y with ds | ls
        · rcases z with es | ms
          · rfl
          · simp only [cmpSegList, cmpOptSeg] at h2
            exact Ordering.noConfusion h2
        · exact Ordering.noConfusion h1
  | cons x xs ih =>
    cases b with
    | nil =>
      cases c with
      | nil => exact Ordering.noConfusion h2
      | cons z zs =>
        rcases x with ds | ls
        · exact Ordering.noConfusion h1
        · rcases z with es | ms
          · rfl
          · exact Ordering.noConfusion h2
    | cons y ys =>
      cases c with
      | nil =>
        rcases x with ds | ls
        · rcases y with es | ms
          · simp only [cmpSegList] at h1
            rw [show cmpOptSeg (some (.digits ds)) (some (.digits es))
                  = cmpNat (natOfDigits ds) (natOfDigits es) from rfl] at h1
            rcases hc : cmpNat (natOfDigits ds) (natOfDigits es) with _ | _ | _ <;>
              rw [hc] at h1
            · exact Ordering.noConfusion h2
            · exact Ordering.noConfusion h2
            · exact Ordering.noConfusion h1
          · simp only [cmpSegList, cmpOptSeg] at h1
            exact Ordering.noConfusion h1
        · rfl
      | cons z zs =>
        simp only [cmpSegList] at h1 h2 ⊢
        cases hxy : cmpOptSeg (some x) (some y) with
        | lt =>
          rw [hxy] at h1
          cases hyz : cmpOptSeg (some y) (some z) with
          | lt => rw [cmpOptSeg_lt_trans hxy hyz]
          | eq => rw [← cmpOptSeg_congr_right hyz (some x), hxy]
          | gt => rw [hyz] at h2; exact Ordering.noConfusion h2
        | eq =>
          rw [hxy] at h1
          cases hyz : cmpOptSeg (some y) (some z) with
          | lt => rw [cmpOptSeg_congr_left hxy (some z), hyz]
          | eq =>
            rw [hyz] at h2
            rw [cmpOptSeg_congr_left hxy (some z), hyz]
            exact ih h1 h2
          | gt => rw [hyz] at h2; exact Ordering.noConfusion h2
        | gt => rw [hxy] at h1; exact Ordering.noConfusion h1

/-! ### Structure of the tokenizer output -/

theorem tokenizeFrom_segOk (cs : List Char) :
    ∀ (cur : Option Segment), (∀ s, cur = some s → segOk s = true) →
      ∀ seg ∈ tokenizeFrom cur cs, segOk seg = true := by
  induction cs with
  | nil =>
    intro cur hcur seg hseg
    rcases cur with _ | s
    · simp [tokenizeFrom, flushRun] at hseg
    · simp [tokenizeFrom, flushRun] at hseg
      rw [hseg]
      exact hcur s rfl
  | cons c cs ih =>
    intro cur hcur seg hseg
    by_cases hd : c.isDigit
    · rcases cur with _ | (ds | ls)
      · simp only [tokenizeFrom, if_pos hd] at hseg
        refine ih (some (.digits [c])) ?_ seg hseg
        intro s hs
        injection hs with hs
        rw [← hs]
        simp [segOk, hd]
      · simp only [tokenizeFrom, if_pos hd] at hseg
        refine ih (some (.digits (ds ++ [c]))) ?_ seg hseg
        intro s hs
        injection hs with hs
        rw [← hs]
        have hds := hcur (.digits ds) rfl
        simp only [segOk, Bool.and_eq_true, List.all_append] at hds ⊢
        simp [hds.2, hd]
      · simp only [tokenizeFrom, if_pos hd, List.mem_cons] at hseg
        rcases hseg with hseg | hseg
        · rw [hseg]
          exact hcur (.letters ls) rfl
        · refine ih (some (.digits [c])) ?_ seg hseg
          intro s hs
          injection hs with hs
          rw [← hs]
          simp [segOk, hd]
    · by_cases ha : c.isAlpha
      · rcases cur with _ | (ds | ls)
        · simp only [tokenizeFrom, if_neg hd, if_pos ha] at hseg
          refine ih (some (.letters [c])) ?_ seg hseg
          intro s hs
          injection hs with hs
          rw [← hs]
          simp [segOk, ha]
        · simp only [tokenizeFrom, if_neg hd, if_pos ha, List.mem_cons] at hseg
          rcases hseg with hseg | hseg
          · rw [hseg]
            exact hcur (.digits ds) rfl
          · refine ih (some (.letters [c])) ?_ seg hseg
            intro s hs
            injection hs with hs
            rw [← hs]
            simp [segOk, ha]
        · simp only [tokenizeFrom, if_neg hd, if_pos ha] at hseg
          refine ih (some (.letters (ls ++ [c]))) ?_ seg hseg
          intro s hs
          injection hs with hs
          rw [← hs]
          have hls := hcur (.letters ls) rfl
          simp only [segOk, Bool.and_eq_true, List.all_append] at hls ⊢
          simp [hls.2, ha]
      · rcases cur with _ | s
        · simp only [tokenizeFrom, if_neg hd, if_neg ha, flushRun] at hseg
          exact ih none (by intro s hs; exact Option.noConfusion hs) seg hseg
        · simp only [tokenizeFrom, if_neg hd, if_neg ha, flushRun, List.mem_cons] at hseg
          rcases hseg with hseg | hseg
          · rw [hseg]
            exact hcur s rfl
          · exact ih none (by intro s hs; exact Option.noConfusion hs) seg hseg

theorem tokenize_segOk {cs : List Char} {seg : Segment} (h : seg ∈ tokenize cs) :
    segOk seg = true :=
  tokenizeFrom_segOk cs none (by intro s hs; exact Option.noConfusion hs) seg h

theorem joinSegs_cons (s : Segment) (l : List Segment) :
    joinSegs (s :: l) = s.chars ++ joinSegs l := by
  simp [joinSegs]

theorem tokenizeFrom_join (cs : List Char) :
    ∀ (cur : Option Segment),
      joinSegs (tokenizeFrom cur cs) = optChars cur ++ cs.filter isSegmentChar := by
  induction cs with
  | nil =>
    intro cur
    rcases cur with _ | s <;> simp [tokenizeFrom, flushRun, joinSegs, optChars]
  | cons c cs ih =>
    intro cur
    by_cases hd : c.isDigit
    · have hkeep : isSegmentChar c = true := by simp [isSegmentChar, hd]
      rcases cur with _ | (ds | ls)
      · simp only [tokenizeFrom, if_pos hd]
        rw [ih]
        simp [optChars, Segment.chars, List.filter_cons, hkeep]
      · simp only [tokenizeFrom, if_pos hd]
        rw [ih]
        simp [optChars, Segment.chars, List.filter_cons, hkeep]
      · simp only [tokenizeFrom, if_pos hd, joinSegs_cons]
        rw [ih]
        simp [optChars, Segment.chars, List.filter_cons, hkeep]
    · by_cases ha : c.isAlpha
      · have hkeep : isSegmentChar c = true := by simp [isSegmentChar, ha]
        rcases cur with _ | (ds | ls)
        · simp only [tokenizeFrom, if_neg hd, if_pos ha]
          rw [ih]
          simp [optChars, Segment.chars, List.filter_cons, hkeep]
        · simp only [tokenizeFrom, if_neg hd, if_pos ha, joinSegs_cons]
          rw [ih]
          simp [optChars, Segment.chars, List.filter_cons, hkeep]
        · simp only [tokenizeFrom, if_neg hd, if_pos ha]
          rw [ih]
          simp [optChars, Segment.chars, List.filter_cons, hkeep]
      · have hkeep : isSegmentChar c = false := by simp [isSegmentChar, hd, ha]
        rcases cur with _ | s
        · simp only [tokenizeFrom, if_neg hd, if_neg ha, flushRun]
          rw [ih]
          simp [optChars, List.filter_cons, hkeep]
        · simp only [tokenizeFrom, if_neg hd, if_neg ha, flushRun, joinSegs_cons]
          rw [ih]
          simp [optChars, List.filter_cons, hkeep]

theorem tokenize_join (cs : List Char) :
    joinSegs (tokenize cs) = cs.filter isSegmentChar := by
  have h := tokenizeFrom_join cs none
  simpa [tokenize, optChars] using h

theorem segOk_chars {seg : Segment} {c : Char} (h : segOk seg = true)
    (hc : c ∈ seg.chars) : isSegmentChar c = true := by
  rcases seg with ds | ls <;>
    simp only [segOk, Bool.and_eq_true, List.all_eq_true, Segment.chars] at h hc <;>
    simp [isSegmentChar, h.2 c hc]

theorem segOk_ne_nil {seg : Segment} (h : segOk seg = true) : seg.chars ≠ [] := by
  intro he
  rcases seg with ds | ls <;> simp only [Segment.chars] at he <;> subst he <;>
    simp [segOk] at h

/-! ### Version parsing facts -/

theorem stringMk_data (s : String) : String.mk s.data = s := by
  cases s
  rfl

theorem parseVersionTail_error {orig : List Char} {ep : Option Nat} {rest : List Char}
    {e : Error} (h : parseVersionTail orig ep rest = .error e) :
    e = .invalidVersion (String.mk orig) := by
  unfold parseVersionTail at h
  split at h <;> split at h <;>
    first
      | exact Except.noConfusion h
      | (injection h with h; exact h.symm)

theorem parseVersionChars_error {cs : List Char} {e : Error}
    (h : parseVersionChars cs = .error e) : e = .invalidVersion (String.mk cs) := by
  unfold parseVersionChars at h
  split at h
  · split at h
    · injection h with h
      exact h.symm
    · exact parseVersionTail_error h
  · exact parseVersionTail_error h

theorem versionWithPkgrelChars_isSome {cs : List Char} {v : Version}
    (h : versionWithPkgrelChars cs = .ok v) : v.pkgrel.isSome = true := by
  unfold versionWithPkgrelChars at h
  split at h
  · split at h
    · injection h with h
      rw [← h]
      assumption
    · exact Except.noConfusion h
  · exact Except.noConfusion h

/-! ### Splitting on dashes -/

theorem splitOnDash_ne_nil (cs : List Char) : splitOnDash cs ≠ [] := by
  cases cs with
  | nil => simp [splitOnDash]
  | cons c cs =>
    simp only [splitOnDash]
    split
    · simp
    · split <;> simp

theorem splitOnDash_append_dash (xs ys : List Char) :
    splitOnDash (xs ++ '-' :: ys) = splitOnDash xs ++ splitOnDash ys := by
  induction xs with
  | nil => simp [splitOnDash]
  | cons c cs ih =>
    by_cases hc : c = '-'
    · simp [splitOnDash, hc, ih]
    · cases hr : splitOnDash cs with
      | nil => exact absurd hr (splitOnDash_ne_nil cs)
      | cons f rest =>
        simp only [List.cons_append, splitOnDash, if_neg hc, List.append_eq]
        rw [ih, hr]
        simp

theorem joinDash_splitOnDash (cs : List Char) : joinDash (splitOnDash cs) = cs := by
  induction cs with
  | nil => rfl
  | cons c cs ih =>
    by_cases hc : c = '-'
    · cases hr : splitOnDash cs with
      | nil => exact absurd hr (splitOnDash_ne_nil cs)
      | cons f rest =>
        rw [hr] at ih
        simp [splitOnDash, hc, hr, joinDash, ih]
    · cases hr : splitOnDash cs with
      | nil => exact absurd hr (splitOnDash_ne_nil cs)
      | cons f rest =>
        rw [hr] at ih
        cases rest with
        | nil =>
          simp only [joinDash] at ih
          simp [splitOnDash, hc, hr, joinDash, ih]
        | cons g rs =>
          simp only [joinDash] at ih
          simp [splitOnDash, hc, hr, joinDash, ih]

theorem splitOnDash_no_dash {cs : List Char} (h : '-' ∉ cs) : splitOnDash cs = [cs] := by
  induction cs with
  | nil => rfl
  | cons c cs ih =>
    have hc : ¬(c = '-') := fun e => h (by rw [e]; exact List.mem_cons_self _ _)
    have hcs : '-' ∉ cs := fun m => h (List.mem_cons_of_mem c m)
    simp [splitOnDash, hc, ih hcs]

theorem splitOnDash_length (cs : List Char) :
    (splitOnDash cs).length = cs.count '-' + 1 := by
  induction cs with
  | nil => simp [splitOnDash]
  | cons c cs ih =>
    by_cases hc : c = '-'
    · subst hc
      simp [splitOnDash, List.count_cons, ih]
    · cases hr : splitOnDash cs with
      | nil => exact absurd hr (splitOnDash_ne_nil cs)
      | cons f rest =>
        rw [hr] at ih
        simp only [splitOnDash, if_neg hc, hr, List.length_cons, List.count_cons] at ih ⊢
        simp [hc]
        omega

theorem rsplitn4_parts (name epv rel arch : List Char)
    (h1 : '-' ∉ epv) (h2 : '-' ∉ rel) (h3 : '-' ∉ arch) :
    rsplitn4Chars (name ++ '-' :: (epv ++ '-' :: (rel ++ '-' :: arch)))
      = [arch, rel, epv, name] := by
  have hfs : splitOnDash (name ++ '-' :: (epv ++ '-' :: (rel ++ '-' :: arch)))
      = splitOnDash name ++ [epv, rel, arch] := by
    rw [splitOnDash_append_dash, splitOnDash_append_dash, splitOnDash_append_dash,
        splitOnDash_no_dash h1, splitOnDash_no_dash h2, splitOnDash_no_dash h3]
    simp
  unfold rsplitn4Chars
  rw [hfs]
  rcases hsp : splitOnDash name with _ | ⟨f, rest⟩
  · exact absurd hsp (splitOnDash_ne_nil name)
  · have hjoin : joinDash (f :: rest) = name := by
      rw [← hsp]
      exact joinDash_splitOnDash name
    cases rest with
    | nil =>
      have hf : f = name := by simpa [joinDash] using hjoin
      subst hf
      simp
    | cons g rs =>
      have hlen : ((f :: g :: rs) ++ [epv, rel, arch]).length
          = (f :: g :: rs).length + 3 := by simp
      have hgt : ¬((f :: g :: rs) ++ [epv, rel, arch]).length ≤ 4 := by
        rw [hlen]
        simp
      rw [if_neg hgt, hlen]
      have hsub : (f :: g :: rs).length + 3 - 3 = (f :: g :: rs).length := by omega
      rw [hsub, List.drop_left, List.take_left, hjoin]
      simp

theorem installedPackageNew_pkgrel {s : String} {pkg : InstalledPackage}
    (h : installedPackageNew s = .ok pkg) : pkg.version.pkgrel.isSome = true := by
  unfold installedPackageNew at h
  split at h
  · exact Except.noConfusion h
  · split at h
    · exact Except.noConfusion h
    · split at h
      · exact Except.noConfusion h
      · split at h
        · exact Except.noConfusion h
        · split at h
          · exact Except.noConfusion h
          · split at h
            · exact Except.noConfusion h
            · split at h
              · exact Except.noConfusion h
              · injection h with h
                rw [← h]
                exact versionWithPkgrelChars_isSome (by assumption)

theorem installedPackageNew_few_dashes (s : String) (h : s.data.count '-' < 3) :
    (installedPackageNew s).isOk = false := by
  have hlen : (rsplitn4Chars s.data).length ≤ 3 := by
    unfold rsplitn4Chars
    rw [if_pos (by rw [splitOnDash_length]; omega)]
    rw [List.length_reverse, splitOnDash_length]
    omega
  have h3 : (rsplitn4Chars s.data).get? 3 = none := List.get?_eq_none.mpr (by omega)
  unfold installedPackageNew
  split
  · rfl
  · split
    · rfl
    · split
      · rfl
      · split
        · rfl
        · rw [h3]
          rfl

/-! ### MakePkgOption facts -/

theorem mpoCheck_ok {name : List Char} {b : Bool} {o : MakePkgOption}
    (h : mpoCheck name b = .ok o) : o = ⟨name, b⟩ ∧ name.all mpoCharValid = true := by
  unfold mpoCheck at h
  split at h
  · exact Except.noConfusion h
  · refine ⟨?_, ?_⟩
    · injection h with h
      exact h.symm
    · have hf : name.find? (fun c => !(mpoCharValid c)) = none := by assumption
      rw [List.find?_eq_none] at hf
      rw [List.all_eq_true]
      intro c hc
      have := hf c hc
      simpa using this

theorem makePkgOptionNew_ok {s : String} {o : MakePkgOption}
    (h : makePkgOptionNew s = .ok o) :
    mpoDisplay o = s ∧ o.name.all mpoCharValid = true := by
  unfold makePkgOptionNew at h
  split at h
  next rest heq =>
    obtain ⟨ho, hall⟩ := mpoCheck_ok h
    subst ho
    refine ⟨?_, hall⟩
    rw [← stringMk_data s, heq]
    rfl
  next =>
    obtain ⟨ho, hall⟩ := mpoCheck_ok h
    subst ho
    refine ⟨?_, hall⟩
    rw [← stringMk_data s]
    rfl

/-! ### The claims -/

/-- C1: when exactly one side of a composite comparison has a pkgrel, the
composite result is exactly the result of the epoch+pkgver steps alone —
absence of pkgrel means the field is not compared, not that it is a lowest
value; in particular the parsed versions of `1.0` and `1.0-2` compare
Equal. -/
theorem claim_C1 :
    (∀ a b : Version, a.pkgrel.isSome ≠ b.pkgrel.isSome →
      compareVersions a b = cmpEpochPkgver a b) ∧
    parseAndCompare "1.0" "1.0-2" = some .eq := by
  refine ⟨?_, rfl⟩
  intro a b hne
  unfold compareVersions
  cases h : cmpEpochPkgver a b with
  | eq =>
    cases ha : a.pkgrel with
    | none =>
      cases hb : b.pkgrel with
      | none => rfl
      | some y => rfl
    | some x =>
      cases hb : b.pkgrel with
      | none => rfl
      | some y =>
        rw [ha, hb] at hne
        simp at hne
  | lt => rfl
  | gt => rfl

theorem claim_C1_witness :
    compareVersions ⟨none, ['1'], none⟩ ⟨none, ['1'], some ['2']⟩
      = cmpEpochPkgver ⟨none, ['1'], none⟩ ⟨none, ['1'], some ['2']⟩ :=
  claim_C1.1 ⟨none, ['1'], none⟩ ⟨none, ['1'], some ['2']⟩ (by decide)

/-- C2: the pkgver comparison is a total order on valid pkgver strings:
exactly one of Less/Equal/Greater holds, comparison of a string with itself
is Equal, swapping the arguments inverts the result, and Less is
transitive. -/
theorem claim_C2 (a b c : String)
    (_ha : validPkgverChars a.data = true) (_hb : validPkgverChars b.data = true)
    (_hc : validPkgverChars c.data = true) :
    ExactlyOne (vercmp a b = .lt) (vercmp a b = .eq) (vercmp a b = .gt) ∧
    vercmp a a = .eq ∧
    vercmp a b = (vercmp b a).swap ∧
    (vercmp a b = .lt → vercmp b c = .lt → vercmp a c = .lt) := by
  refine ⟨?_, cmpSegList_refl _, cmpSegList_swap _ _,
    fun h1 h2 => cmpSegList_lt_trans h1 h2⟩
  unfold ExactlyOne
  cases h : vercmp a b <;> simp

theorem claim_C2_witness :
    validPkgverChars "1.0".data = true ∧ validPkgverChars "1.1".data = true ∧
    validPkgverChars "2".data = true ∧
    (ExactlyOne (vercmp "1.0" "1.1" = .lt) (vercmp "1.0" "1.1" = .eq)
        (vercmp "1.0" "1.1" = .gt) ∧
      vercmp "1.0" "1.0" = .eq ∧
      vercmp "1.0" "1.1" = (vercmp "1.1" "1.0").swap ∧
      (vercmp "1.0" "1.1" = .lt → vercmp "1.1" "2" = .lt → vercmp "1.0" "2" = .lt)) :=
  ⟨by decide, by decide, by decide,
    claim_C2 "1.0" "1.1" "2" (by decide) (by decide) (by decide)⟩

/-- C3: the segment comparator orders kinds as specified: a numeric segment
beats an alphabetic one, an exhausted side beats a present alphabetic
segment and loses to a present numeric segment; hence `1.0` is Greater than
`1.0a` and Less than `1.0.1`. -/
theorem claim_C3 :
    (∀ ds ls, cmpOptSeg (some (.digits ds)) (some (.letters ls)) = .gt) ∧
    (∀ ds ls, cmpOptSeg (some (.letters ls)) (some (.digits ds)) = .lt) ∧
    (∀ ls, cmpOptSeg none (some (.letters ls)) = .gt) ∧
    (∀ ls, cmpOptSeg (some (.letters ls)) none = .lt) ∧
    (∀ ds, cmpOptSeg none (some (.digits ds)) = .lt) ∧
    (∀ ds, cmpOptSeg (some (.digits ds)) none = .gt) ∧
    vercmp "1.0" "1.0a" = .gt ∧ vercmp "1.0" "1.0.1" = .lt :=
  ⟨fun _ _ => rfl, fun _ _ => rfl, fun _ => rfl, fun _ => rfl, fun _ => rfl,
    fun _ => rfl, by decide, by decide⟩

/-- C4: composite comparison proceeds epoch, then pkgver, then pkgrel,
short-circuiting at the first non-Equal step, with an absent epoch treated
as the integer 0; hence `1:1.0-1` is Greater than `2.0-1`. -/
theorem claim_C4 :
    (∀ a b : Version, cmpNat a.epochVal b.epochVal ≠ .eq →
      compareVersions a b = cmpNat a.epochVal b.epochVal) ∧
    (∀ a b : Version, cmpNat a.epochVal b.epochVal = .eq →
      cmpSegList (tokenize a.pkgver) (tokenize b.pkgver) ≠ .eq →
      compareVersions a b = cmpSegList (tokenize a.pkgver) (tokenize b.pkgver)) ∧
    (∀ a b : Version, cmpNat a.epochVal b.epochVal = .eq →
      cmpSegList (tokenize a.pkgver) (tokenize b.pkgver) = .eq →
      ∀ x y, a.pkgrel = some x → b.pkgrel = some y →
        compareVersions a b = cmpSegList (tokenize x) (tokenize y)) ∧
    (∀ pv pr, Version.epochVal ⟨none, pv, pr⟩ = 0) ∧
    parseAndCompare "1:1.0-1" "2.0-1" = some .gt := by
  refine ⟨?_, ?_, ?_, fun _ _ => rfl, rfl⟩
  · intro a b h
    unfold compareVersions cmpEpochPkgver
    cases he : cmpNat a.epochVal b.epochVal with
    | eq => exact absurd he h
    | lt => rfl
    | gt => rfl
  · intro a b he hp
    unfold compareVersions cmpEpochPkgver
    rw [he]
    cases hv : cmpSegList (tokenize a.pkgver) (tokenize b.pkgver) with
    | eq => exact absurd hv hp
    | lt => rfl
    | gt => rfl
  · intro a b he hv x y hx hy
    unfold compareVersions cmpEpochPkgver
    rw [he, hv, hx, hy]

theorem claim_C4_witness :
    compareVersions ⟨some 1, ['1'], none⟩ ⟨none, ['2'], none⟩
      = cmpNat (Version.epochVal ⟨some 1, ['1'], none⟩)
          (Version.epochVal ⟨none, ['2'], none⟩) :=
  claim_C4.1 ⟨some 1, ['1'], none⟩ ⟨none, ['2'], none⟩ (by decide)

/-- C5: the tokenizer yields exactly the maximal digit and letter runs in
order: every produced segment is non-empty and homogeneous, never contains
`.` or `_`, concatenating the segments reproduces the non-separator
characters in order, a digit/letter class change without separator is a
boundary (`1.0a12`), and the two separators are interchangeable
(`1_0` = `1.0`). -/
theorem claim_C5 :
    (∀ cs : List Char, ∀ seg ∈ tokenize cs,
      seg.chars ≠ [] ∧ '.' ∉ seg.chars ∧ '_' ∉ seg.chars ∧ segOk seg = true) ∧
    (∀ cs : List Char, joinSegs (tokenize cs) = cs.filter isSegmentChar) ∧
    tokenize "1.0a12".data
      = [.digits ['1'], .digits ['0'], .letters ['a'], .digits ['1', '2']] ∧
    vercmp "1_0" "1.0" = .eq := by
  refine ⟨?_, tokenize_join, by decide, by decide⟩
  intro cs seg hseg
  have hok := tokenize_segOk hseg
  refine ⟨segOk_ne_nil hok, ?_, ?_, hok⟩
  · intro hmem
    exact absurd (segOk_chars hok hmem) (by decide)
  · intro hmem
    exact absurd (segOk_chars hok hmem) (by decide)

theorem claim_C5_witness :
    (Segment.digits ['1']).chars ≠ [] ∧ '.' ∉ (Segment.digits ['1']).chars ∧
      '_' ∉ (Segment.digits ['1']).chars ∧ segOk (.digits ['1']) = true :=
  claim_C5.1 "1.0a12".data (.digits ['1']) (by decide)

/-- C6: present numeric segments compare by integer value with leading
zeros stripped (so `0` and `00` are Equal) and present alphabetic segments
compare byte-lexicographically; in particular `1.01` and `1.1` compare
Equal. -/
theorem claim_C6 :
    (∀ (n : Nat) (ds es : List Char),
      cmpOptSeg (some (.digits (List.replicate n '0' ++ ds))) (some (.digits es))
        = cmpNat (natOfDigits ds) (natOfDigits es)) ∧
    cmpOptSeg (some (.digits ['0'])) (some (.digits ['0', '0'])) = .eq ∧
    (∀ a b : List Char, cmpOptSeg (some (.letters a)) (some (.letters b)) = lexCmp a b) ∧
    (∀ a b : List Char, lexCmp a b = .eq ↔ a = b) ∧
    vercmp "1.01" "1.1" = .eq := by
  refine ⟨?_, by decide, fun _ _ => rfl, fun _ _ => lexCmp_eq_iff, by decide⟩
  intro n ds es
  have hz : natOfDigits (List.replicate n '0' ++ ds) = natOfDigits ds := by
    unfold natOfDigits
    rw [List.foldl_append]
    congr 1
    induction n with
    | zero => rfl
    | succ k ih =>
      rw [List.replicate_succ, List.foldl_cons]
      exact ih
  rw [show cmpOptSeg (some (.digits (List.replicate n '0' ++ ds))) (some (.digits es))
      = cmpNat (natOfDigits (List.replicate n '0' ++ ds)) (natOfDigits es) from rfl, hz]

theorem claim_C6_witness : lexCmp ['a'] ['a'] = .eq :=
  (claim_C6.2.2.2.1 ['a'] ['a']).mpr rfl

/-- C7: requirement parsing matches exactly one of the five comparator
tokens, multi-character tokens greedily before single-character ones, and
satisfaction holds exactly when the three-way comparison of the candidate
against the stored version lands in the comparator's allowed set; in
particular `>=1.2-1` is satisfied by `1.3-1` and `<1.0` is not satisfied by
`1.0`. -/
theorem claim_C7 :
    (∀ rest, parseComparatorChars ('<' :: '=' :: rest) = some (.lessOrEqual, rest)) ∧
    (∀ rest, parseComparatorChars ('>' :: '=' :: rest) = some (.greaterOrEqual, rest)) ∧
    (∀ rest, rest.head? ≠ some '=' →
      parseComparatorChars ('<' :: rest) = some (.less, rest)) ∧
    (∀ rest, rest.head? ≠ some '=' →
      parseComparatorChars ('>' :: rest) = some (.greater, rest)) ∧
    (∀ rest, parseComparatorChars ('=' :: rest) = some (.equal, rest)) ∧
    (∀ v cand, isSatisfiedBy ⟨.less, v⟩ cand = true ↔ compareVersions cand v = .lt) ∧
    (∀ v cand, isSatisfiedBy ⟨.lessOrEqual, v⟩ cand = true ↔
      (compareVersions cand v = .lt ∨ compareVersions cand v = .eq)) ∧
    (∀ v cand, isSatisfiedBy ⟨.equal, v⟩ cand = true ↔ compareVersions cand v = .eq) ∧
    (∀ v cand, isSatisfiedBy ⟨.greaterOrEqual, v⟩ cand = true ↔
      (compareVersions cand v = .eq ∨ compareVersions cand v = .gt)) ∧
    (∀ v cand, isSatisfiedBy ⟨.greater, v⟩ cand = true ↔ compareVersions cand v = .gt) ∧
    parseAndSatisfies ">=1.2-1" "1.3-1" = some true ∧
    parseAndSatisfies "<1.0" "1.0" = some false := by
  refine ⟨fun rest => rfl, fun rest => rfl, ?_, ?_, fun rest => rfl,
    ?_, ?_, ?_, ?_, ?_, rfl, rfl⟩
  · intro rest h
    cases rest with
    | nil => rfl
    | cons c rs =>
      have hc : ¬(c = '=') := by
        intro he
        exact h (by simp [he])
      rw [parseComparatorChars.eq_def]
      split
      next x rest heq =>
        injection heq with h1 h2
        injection h2 with h2 h3
        exact absurd h2 hc
      next x rest heq =>
        injection heq with h1 h2
        exact absurd h1 (by decide)
      next x rest hno heq =>
        injection heq with h1 h2
        rw [h2]
      next x rest hno heq =>
        injection heq with h1 h2
        exact absurd h1 (by decide)
      next x rest heq =>
        injection heq with h1 h2
        exact absurd h1 (by decide)
      next x hno1 hno2 hno3 hno4 hno5 =>
        exact (hno3 (c :: rs) rfl).elim
  · intro rest h
    cases rest with
    | nil => rfl
    | cons c rs =>
      have hc : ¬(c = '=') := by
        intro he
        exact h (by simp [he])
      rw [parseComparatorChars.eq_def]
      split
      next x rest heq =>
        injection heq with h1 h2
        exact absurd h1 (by decide)
      next x rest heq =>
        injection heq with h1 h2
        injection h2 with h2 h3
        exact absurd h2 hc
      next x rest hno heq =>
        injection heq with h1 h2
        exact absurd h1 (by decide)
      next x rest hno heq =>
        injection heq with h1 h2
        rw [h2]
      next x rest heq =>
        injection heq with h1 h2
        exact absurd h1 (by decide)
      next x hno1 hno2 hno3 hno4 hno5 =>
        exact (hno4 (c :: rs) rfl).elim
  · intro v cand
    unfold isSatisfiedBy comparisonAllows
    cases h : compareVersions cand v <;> simp
  · intro v cand
    unfold isSatisfiedBy comparisonAllows
    cases h : compareVersions cand v <;> simp
  · intro v cand
    unfold isSatisfiedBy comparisonAllows
    cases h : compareVersions cand v <;> simp
  · intro v cand
    unfold isSatisfiedBy comparisonAllows
    cases h : compareVersions cand v <;> simp
  · intro v cand
    unfold isSatisfiedBy comparisonAllows
    cases h : compareVersions cand v <;> simp

theorem claim_C7_witness :
    parseComparatorChars ('<' :: 'x' :: []) = some (.less, ['x']) :=
  claim_C7.2.2.1 ['x'] (by decide)

/-- C8 counterexample: the four malformed inputs do not fail with four
distinct error kinds — the code's `Error` enum (`error.rs`) has a single
version error kind `InvalidVersion(String)`, so all four failures share the
same kind (index 5), differing only in the carried input string. -/
theorem claim_C8_cex :
    errKind (parseVersion "") = some 5 ∧
    errKind (parseVersion ":1.0") = some 5 ∧
    errKind (parseVersion "1.0-") = some 5 ∧
    errKind (parseVersion "1.0$") = some 5 :=
  ⟨rfl, rfl, rfl, rfl⟩

/-- C8 (amended): every version parse failure is reported synchronously as
a typed error of the code's single version error kind
`InvalidVersion(String)` carrying the offending input; in particular the
four malformed inputs each fail (none is coerced to a default value),
distinguished by their carried string rather than by kind. -/
theorem claim_C8 :
    (∀ (cs : List Char) (e : Error), parseVersionChars cs = .error e →
      e = .invalidVersion (String.mk cs)) ∧
    parseVersion "" = .error (.invalidVersion "") ∧
    parseVersion ":1.0" = .error (.invalidVersion ":1.0") ∧
    parseVersion "1.0-" = .error (.invalidVersion "1.0-") ∧
    parseVersion "1.0$" = .error (.invalidVersion "1.0$") :=
  ⟨fun _ _ h => parseVersionChars_error h, rfl, rfl, rfl, rfl⟩

theorem claim_C8_witness :
    Error.invalidVersion "1.0$" = .invalidVersion (String.mk "1.0$".data) :=
  claim_C8.1 "1.0$".data (.invalidVersion "1.0$") rfl

/-- C9: `InstalledPackage::new` splits its input at the last three `-`
characters (architecture, then pkgrel, then epoch:pkgver, with the
remainder — dashes included — as the name), every successfully constructed
package holds a version with a pkgrel via `Version::with_pkgrel`, and an
input with fewer than four `-`-separated parts, or whose version component
lacks a valid pkgrel, is rejected with an error. -/
theorem claim_C9 :
    (∀ name epv rel arch : List Char, '-' ∉ epv → '-' ∉ rel → '-' ∉ arch →
      rsplitn4Chars (name ++ '-' :: (epv ++ '-' :: (rel ++ '-' :: arch)))
        = [arch, rel, epv, name]) ∧
    installedPackageNew "foo-bar-1:1.0.0-1-any"
      = .ok ⟨"foo-bar".data, ⟨some 1, "1.0.0".data, some "1".data⟩, .any⟩ ∧
    (∀ (s : String) (pkg : InstalledPackage), installedPackageNew s = .ok pkg →
      pkg.version.pkgrel.isSome = true) ∧
    (∀ (cs : List Char) (v : Version), versionWithPkgrelChars cs = .ok v →
      v.pkgrel.isSome = true) ∧
    (∀ s : String, s.data.count '-' < 3 → (installedPackageNew s).isOk = false) ∧
    (installedPackageNew "foo-bar-1:1.0.0-1").isOk = false :=
  ⟨rsplitn4_parts, rfl, fun _ _ h => installedPackageNew_pkgrel h,
    fun _ _ h => versionWithPkgrelChars_isSome h, installedPackageNew_few_dashes,
    by decide⟩

theorem claim_C9_witness :
    rsplitn4Chars
        ("foo-bar".data ++ '-' :: ("1:1.0.0".data ++ '-' :: ("1".data ++ '-' :: "any".data)))
      = ["any".data, "1".data, "1:1.0.0".data, "foo-bar".data] :=
  claim_C9.1 "foo-bar".data "1:1.0.0".data "1".data "any".data
    (by decide) (by decide) (by decide)

/-- C10: formatting an accepted `MakePkgOption` with its `Display`
implementation reproduces the original input exactly (restoring the `!`
prefix when the option is off), every accepted name consists of allowed
characters only, and a second leading `!` is rejected as an invalid
character rather than stripped. -/
theorem claim_C10 :
    (∀ (s : String) (o : MakePkgOption), makePkgOptionNew s = .ok o →
      mpoDisplay o = s) ∧
    (∀ (s : String) (o : MakePkgOption), makePkgOptionNew s = .ok o →
      o.name.all mpoCharValid = true) ∧
    makePkgOptionNew "!!something" = .error (.valueContainsInvalidChars '!') :=
  ⟨fun _ _ h => (makePkgOptionNew_ok h).1, fun _ _ h => (makePkgOptionNew_ok h).2, rfl⟩

theorem claim_C10_witness : mpoDisplay ⟨"foo".data, false⟩ = "!foo" :=
  claim_C10.1 "!foo" ⟨"foo".data, false⟩ rfl

end Alpm
